import Mathlib

/-!
Verification development for the RyteAI agent instruction pipeline.

The definitions below are a shallow embedding of the relevant program parts:
the Supabase credit ledger (SQL functions `consume_credit`, `refund_credit`,
the `handle_new_user` signup trigger), the markdown normalization helpers
(`cleanMarkdown`, `containsMarkdown` and its fixed pattern list), the
TipTap-based patch applier (`insertMarkdownContent`, the aiResponse highlight
lifecycle, `saveCanvas` persistence), the client-side rate limiter, and the
SSE stream handling loop of the agent chat.  Text is modelled as `List Char`,
the editor document as a list of characters each carrying the transient
aiResponse mark flag.
-/

namespace RyteAI

/-! ## Credit ledger (Supabase SQL migration) -/

/-- Result of a ledger RPC call, mirroring the `jsonb_build_object` payloads
returned by `consume_credit` / `refund_credit`: success with the remaining
credits, failure for insufficient credits (balance reported unchanged), or
failure because no profile row exists for the user. -/
inductive CreditResult where
  | ok (remaining : Int)
  | insufficient (remaining : Int)
  | notFound
deriving DecidableEq, Repr

/-- Profiles table: association of `user_id` to its `credits` column
(SQL INTEGER, modelled as `Int`). -/
abbrev ProfilesTable := List (Nat × Int)

/-- UPDATE public.profiles SET credits = v WHERE user_id = uid. -/
def setBal (db : ProfilesTable) (uid : Nat) (v : Int) : ProfilesTable :=
  db.map (fun r => match r with | (k, c) => if k = uid then (k, v) else (k, c))

/-- Embedding of the SQL function `public.consume_credit(p_user_id, p_amount)`.
The `SELECT ... FOR UPDATE` row lock makes each call an atomic
check-and-decrement, so a call is modelled as one atomic step:
missing profile row reports not-found, `credits < amount` reports
insufficient with the balance unchanged, otherwise the balance is
decremented and the new balance returned. -/
def consume_credit (db : ProfilesTable) (uid : Nat) (amount : Int) :
    ProfilesTable × CreditResult :=
  match db.lookup uid with
  | none => (db, .notFound)
  | some c =>
    if c < amount then (db, .insufficient c)
    else (setBal db uid (c - amount), .ok (c - amount))

/-- Embedding of the SQL function `public.refund_credit(p_user_id, p_amount)`:
`UPDATE ... SET credits = credits + amount ... RETURNING credits`; a missing
row yields the not-found error, otherwise the incremented balance is
returned. -/
def refund_credit (db : ProfilesTable) (uid : Nat) (amount : Int) :
    ProfilesTable × CreditResult :=
  match db.lookup uid with
  | none => (db, .notFound)
  | some c => (setBal db uid (c + amount), .ok (c + amount))

/-- Whether a ledger call succeeded. -/
def isOk : CreditResult → Bool
  | .ok _ => true
  | _ => false

/-- Run `n` unit reservations (`consume_credit` with the default amount 1)
against the ledger, sequentially; since every call locks the row
(`FOR UPDATE`), any concurrent interleaving of reservations serializes into
such a sequence.  Returns the final table and the number of successes. -/
def runReserves (uid : Nat) : ProfilesTable → Nat → ProfilesTable × Nat
  | db, 0 => (db, 0)
  | db, n + 1 =>
    let step := consume_credit db uid 1
    let rest := runReserves uid step.1 n
    (rest.1, (if isOk step.2 then 1 else 0) + rest.2)

/-- Embedding of the signup trigger `public.handle_new_user()`: on insertion
of a new auth user it inserts a profiles row `(NEW.id, 10)`. -/
def handle_new_user (db : ProfilesTable) (uid : Nat) : ProfilesTable :=
  (uid, 10) :: db

/-- DEFAULT value of the `credits` column in `CREATE TABLE public.profiles`. -/
def profilesDefaultCredits : Int := 10

/-- Free-credit grant advertised by the signup page badge
("Get 10 free AI credits on signup!"). -/
def advertisedSignupCredits : Int := 10

/-! ## Stream events (agent execute-stream protocol) -/

/-- Tagged stream events, mirroring the client's `SSEEvent` union
(`started`, `tool_call`, `tool_result`, `response`, `completed`, `error`);
payloads are flattened to strings. -/
inductive StreamEvent where
  | started
  | toolCall (name arg : String)
  | toolResult (name result : String)
  | response (message : String)
  | completed (message : String)
  | error (reason : String)
deriving DecidableEq, Repr

/-- Terminal events of a request stream. -/
def isTerminal : StreamEvent → Bool
  | .completed _ => true
  | .error _ => true
  | _ => false

/-- One tool-loop step of the orchestrator: a tool call and its result. -/
structure ToolStep where
  name : String
  arg : String
  result : String
deriving DecidableEq, Repr

/-- Terminal outcome of an orchestrator run. -/
inductive OrchOutcome where
  | success (message : String)
  | failure (reason : String)
deriving DecidableEq, Repr

/-- An orchestrator run: the tool steps performed, then the outcome. -/
structure OrchRun where
  steps : List ToolStep
  outcome : OrchOutcome
deriving DecidableEq, Repr

/-- Modelled from the spec: the server-side Agent Orchestrator that produces
the event stream is backend code absent from the sources (only its client,
`AgentChat.handleSend`, is present), so its emission is modelled from the
state-machine of the spec: `Started` on admission, a `ToolCall`/`ToolResult`
pair per loop step, then on success `Response` followed by `Completed`, or
on failure a single `Error`; the stream closes immediately after the
terminal event. -/
def emitTrace (run : OrchRun) : List StreamEvent :=
  .started ::
    (run.steps.flatMap fun s => [.toolCall s.name s.arg, .toolResult s.name s.result]) ++
      match run.outcome with
      | .success m => [.response m, .completed m]
      | .failure r => [.error r]

/-- Embedding of the event-processing loop of `AgentChat.handleSend`: events
are handled in order; handling `completed` or `error` sets `streamComplete`,
which breaks out of both the line loop and the read loop, so the terminal
event is the last one processed. -/
def processedEvents : List StreamEvent → List StreamEvent
  | [] => []
  | e :: es => if isTerminal e then [e] else e :: processedEvents es

/-! ## Client-side rate limiting (CanvasEditor) -/

/-- MIN_LLM_CALL_INTERVAL: minimum 2 seconds between LLM calls. -/
def MIN_LLM_CALL_INTERVAL : Int := 2000

/-- The component state read by the two LLM entry points: the shared
`lastLLMCallRef` timestamp plus the guard flags each handler checks first. -/
structure EditorClientState where
  lastLLMCall : Int
  isImproving : Bool
  isProcessingInstruction : Bool
  hasCanvas : Bool
deriving DecidableEq, Repr

/-- Admission prologue of `handleImproveText`: bail out when no canvas is
loaded or a previous improve call is in flight; reject when less than
`MIN_LLM_CALL_INTERVAL` elapsed since the shared last-call timestamp; reject
when the selection is empty; otherwise record `now` in the shared timestamp
and issue the request.  Returns whether a request is issued plus the new
state. -/
def admitImprove (s : EditorClientState) (now : Int) (selNonEmpty : Bool) :
    Bool × EditorClientState :=
  if !s.hasCanvas || s.isImproving then (false, s)
  else if now - s.lastLLMCall < MIN_LLM_CALL_INTERVAL then (false, s)
  else if !selNonEmpty then (false, s)
  else (true, { s with lastLLMCall := now, isImproving := true })

/-- Admission prologue of `handleAgentInstruction`: same shared-timestamp
check as `admitImprove`, guarded by the instruction-in-flight flag. -/
def admitAgent (s : EditorClientState) (now : Int) :
    Bool × EditorClientState :=
  if !s.hasCanvas || s.isProcessingInstruction then (false, s)
  else if now - s.lastLLMCall < MIN_LLM_CALL_INTERVAL then (false, s)
  else (true, { s with lastLLMCall := now, isProcessingInstruction := true })

/-! ## Markdown helpers (lib/markdown) -/

/-- Whitespace as matched by the JavaScript `\s` class and by `trim`
(restricted to the ASCII range used here). -/
def jsWs (c : Char) : Bool :=
  c == ' ' || c == '\t' || c == '\n' || c == '\r' || c == '\x0b' || c == '\x0c'

/-- JavaScript `String.prototype.trim`: drop whitespace from both ends. -/
def jsTrim (l : List Char) : List Char :=
  ((l.dropWhile jsWs).reverse.dropWhile jsWs).reverse

/-- Split on the newline character, following `String.prototype.split('\n')`:
always returns at least one (possibly empty) piece. -/
def splitOnNL : List Char → List (List Char)
  | [] => [[]]
  | c :: cs =>
    if c = '\n' then [] :: splitOnNL cs
    else
      match splitOnNL cs with
      | [] => [[c]]
      | l :: ls => (c :: l) :: ls

/-- Join pieces with the newline character, following `Array.join('\n')`. -/
def intercalNL : List (List Char) → List Char
  | [] => []
  | [l] => l
  | l :: ls => l ++ '\n' :: intercalNL ls

/-- Whether `pat` occurs as a contiguous substring. -/
def containsSub (pat : List Char) : List Char → Bool
  | [] => pat.isEmpty
  | c :: cs => pat.isPrefixOf (c :: cs) || containsSub pat cs

/-- Count of leading characters satisfying `p`. -/
def leadCount (p : Char → Bool) : List Char → Nat
  | [] => 0
  | c :: cs => if p c then leadCount p cs + 1 else 0

/-- Header pattern: one line consisting of 1 to 6 `#` characters followed by
whitespace and at least one further character. -/
def headingLine (l : List Char) : Bool :=
  let h := leadCount (fun c => c == '#') l
  decide (1 ≤ h) && decide (h ≤ 6) &&
    match l.drop h with
    | c :: _ :: _ => jsWs c
    | _ => false

/-- Bold pattern on a line: a `**` pair followed, at least one character
later, by another `**` pair. -/
def boldLine : List Char → Bool
  | c1 :: c2 :: rest =>
    if c1 = '*' && c2 = '*' then containsSub ['*', '*'] (rest.drop 1)
    else boldLine (c2 :: rest)
  | _ => false

/-- Italic pattern on a line: a `*` followed, at least one character later,
by another `*`. -/
def italicLine : List Char → Bool
  | [] => false
  | c :: cs => if c = '*' then (cs.drop 1).contains '*' else italicLine cs

/-- Unordered-list pattern: optional leading whitespace, a bullet character,
whitespace, then at least one character. -/
def bulletLine (l : List Char) : Bool :=
  match l.dropWhile jsWs with
  | b :: c :: _ :: _ => (b == '-' || b == '*' || b == '+') && jsWs c
  | _ => false

/-- Ordered-list pattern: optional leading whitespace, digits, a dot,
whitespace, then at least one character. -/
def orderedLine (l : List Char) : Bool :=
  let l' := l.dropWhile jsWs
  let d := leadCount Char.isDigit l'
  decide (1 ≤ d) &&
    match l'.drop d with
    | '.' :: c :: _ :: _ => jsWs c
    | _ => false

/-- Blockquote pattern: optional leading whitespace, `>`, whitespace, then at
least one character. -/
def quoteLine (l : List Char) : Bool :=
  match l.dropWhile jsWs with
  | '>' :: c :: _ :: _ => jsWs c
  | _ => false

/-- Horizontal-rule pattern: a line that is three `mark` characters surrounded
only by whitespace. -/
def hrLine (mark : Char) (l : List Char) : Bool :=
  match l.dropWhile jsWs with
  | a :: b :: c :: rest => a == mark && b == mark && c == mark && rest.all jsWs
  | _ => false

/-- Task-list pattern: optional leading whitespace then `- [ ]` or `- [x]`. -/
def taskLine (l : List Char) : Bool :=
  match l.dropWhile jsWs with
  | '-' :: ' ' :: '[' :: c :: ']' :: _ => c == ' ' || c == 'x'
  | _ => false

/-- Continuation of `inlineCodeScan` after an opening backtick: adjacent
backticks restart the opener; once a non-backtick character follows, any
later backtick closes the span. -/
def codeAfterTick : List Char → Bool
  | [] => false
  | c :: cs => if c = '`' then codeAfterTick cs else cs.contains '`'

/-- Inline-code pattern over the whole text: a backtick, one or more
non-backtick characters, then a backtick. -/
def inlineCodeScan : List Char → Bool
  | [] => false
  | c :: cs => if c = '`' then codeAfterTick cs else inlineCodeScan cs

/-- Fenced-code pattern over the whole text: two occurrences of three
backticks with anything (including nothing) between. -/
def codeBlockScan : List Char → Bool
  | [] => false
  | c :: cs =>
    if ['`', '`', '`'].isPrefixOf (c :: cs) then containsSub ['`', '`', '`'] (cs.drop 2)
    else codeBlockScan cs

/-- Continuation of `linkLine` after the opening bracket and at least one
label character: find `](`, then at least one character, then `)`. -/
def linkFindBrk : List Char → Bool
  | ']' :: '(' :: rest => (rest.drop 1).contains ')'
  | _ :: cs => linkFindBrk cs
  | [] => false

/-- Link pattern on a line: `[`, at least one character, `](`, at least one
character, `)`. -/
def linkLine : List Char → Bool
  | '[' :: rest => linkFindBrk (rest.drop 1)
  | _ :: cs => linkLine cs
  | [] => false

/-- Headers pattern of `containsMarkdown` (multiline `^` and `$` are matched
line by line). -/
def matchesHeading (t : List Char) : Bool := (splitOnNL t).any headingLine

/-- Bold pattern of `containsMarkdown`. -/
def matchesBold (t : List Char) : Bool := (splitOnNL t).any boldLine

/-- Italic pattern of `containsMarkdown`. -/
def matchesItalic (t : List Char) : Bool := (splitOnNL t).any italicLine

/-- Unordered-lists pattern of `containsMarkdown`. -/
def matchesUnordered (t : List Char) : Bool := (splitOnNL t).any bulletLine

/-- Ordered-lists pattern of `containsMarkdown`. -/
def matchesOrdered (t : List Char) : Bool := (splitOnNL t).any orderedLine

/-- Blockquotes pattern of `containsMarkdown`. -/
def matchesBlockquote (t : List Char) : Bool := (splitOnNL t).any quoteLine

/-- Inline-code pattern of `containsMarkdown`. -/
def matchesInlineCode (t : List Char) : Bool := inlineCodeScan t

/-- Code-blocks pattern of `containsMarkdown`. -/
def matchesCodeBlock (t : List Char) : Bool := codeBlockScan t

/-- Links pattern of `containsMarkdown`. -/
def matchesLink (t : List Char) : Bool := (splitOnNL t).any linkLine

/-- Horizontal-rules pattern of `containsMarkdown`. -/
def matchesRule (t : List Char) : Bool := (splitOnNL t).any (hrLine '-')

/-- Alternative horizontal-rules pattern of `containsMarkdown`. -/
def matchesRuleAlt (t : List Char) : Bool := (splitOnNL t).any (hrLine '*')

/-- Task-lists pattern of `containsMarkdown`. -/
def matchesTask (t : List Char) : Bool := (splitOnNL t).any taskLine

/-- The fixed `markdownPatterns` array of `containsMarkdown`, in source
order. -/
def markdownPatterns : List (List Char → Bool) :=
  [matchesHeading, matchesBold, matchesItalic, matchesUnordered,
   matchesOrdered, matchesBlockquote, matchesInlineCode, matchesCodeBlock,
   matchesLink, matchesRule, matchesRuleAlt, matchesTask]

/-- Embedding of `containsMarkdown`: true when some pattern of the fixed
list matches the text. -/
def containsMarkdown (text : List Char) : Bool :=
  markdownPatterns.any (fun p => p text)

/-- Embedding of `cleanMarkdown`: trim the text; when the trimmed text starts
and ends with three backticks and spans at least two lines, remove the first
and last lines and rejoin. -/
def cleanMarkdown (text : List Char) : List Char :=
  let cleaned := jsTrim text
  if ['`', '`', '`'].isPrefixOf cleaned && ['`', '`', '`'].isSuffixOf cleaned then
    let ls := splitOnNL cleaned
    if 2 ≤ ls.length then intercalNL ((ls.drop 1).dropLast) else cleaned
  else cleaned

/-- Written from the spec wording, for comparison with `cleanMarkdown`: the
entire payload is wrapped in a single fenced block when, after trimming, the
first line opens a fence, the last line is a fence line, and no interior
line opens a fence. -/
def wrappedInSingleFence (s : List Char) : Bool :=
  match splitOnNL (jsTrim s) with
  | first :: second :: more =>
    let tailLines := second :: more
    ['`', '`', '`'].isPrefixOf first &&
      ['`', '`', '`'].isPrefixOf (tailLines.getLast?.getD []) &&
      tailLines.dropLast.all (fun l => !(List.isPrefixOf ['`', '`', '`'] l))
  | _ => false

/-! ## Editor document model and patch applier (CanvasEditor) -/

/-- The editor document, reduced to what the patch applier and the highlight
lifecycle touch: a sequence of characters, each carrying the transient
aiResponse mark flag. -/
abbrev Doc := List (Char × Bool)

/-- Visible text of the document. -/
def docText (d : Doc) : List Char := d.map Prod.fst

/-- `doc.textBetween(a, b)`: visible text of positions `a` (inclusive) to
`b` (exclusive). -/
def textBetween (d : Doc) (a b : Nat) : List Char :=
  ((docText d).drop a).take (b - a)

/-- Build an unmarked document from text. -/
def mkDoc (text : List Char) : Doc := text.map (fun c => (c, false))

/-- `setTextSelection(a, b)` then `insertContent(content)`: replace the range
`[a, b)` with the given text, inserted without the aiResponse mark. -/
def replaceRange (d : Doc) (a b : Nat) (content : List Char) : Doc :=
  d.take a ++ mkDoc content ++ d.drop b

/-- Helper of `setMarkRange`, carrying the position of the current head. -/
def setMarkAux (a b : Nat) : Nat → Doc → Doc
  | _, [] => []
  | i, p :: rest =>
    (p.1, if a ≤ i ∧ i < b then true else p.2) :: setMarkAux a b (i + 1) rest

/-- `setTextSelection(a, b)` then `setMark('aiResponse')`: set the aiResponse
mark on every position of `[a, b)`. -/
def setMarkRange (d : Doc) (a b : Nat) : Doc := setMarkAux a b 0 d

/-- The delayed highlight-removal transaction: walk the document and remove
the aiResponse mark everywhere (`tr.removeMark` over every marked text
node). -/
def removeAllAiMarks (d : Doc) : Doc := d.map (fun p => (p.1, false))

/-- Whether any position of the document carries the aiResponse mark. -/
def hasAiMark (d : Doc) : Bool := d.any (fun p => p.2)

/-- Embedding of `stripAiResponseMarks`: before a save, recursively remove
the aiResponse entry from the marks of every node of the content tree (in
the flat document model: clear the mark flag of every position). -/
def stripAiResponseMarks (d : Doc) : Doc := d.map (fun p => (p.1, false))

/-- Content persisted by a save: both `saveCanvas` (debounced autosave and
title save) and `handleSaveCanvas` (manual save, Ctrl+S) apply
`stripAiResponseMarks` to `editor.getJSON()` before handing the content to
`updateCanvas` for persistence. -/
def savedContent (d : Doc) : Doc := stripAiResponseMarks d

/-- Embedding of `insertMarkdownContent`: clean the payload; when the cleaned
payload contains markdown, convert it (the `marked` library composed with the
TipTap HTML parser, modelled by the parameter `conv`) and insert, otherwise
insert the cleaned payload as plain text. -/
def insertMarkdownContent (conv : List Char → List Char) (d : Doc)
    (a b : Nat) (content : List Char) : Doc :=
  let cleaned := cleanMarkdown content
  if containsMarkdown cleaned then replaceRange d a b (conv cleaned)
  else replaceRange d a b cleaned

/-- The text actually inserted by `insertMarkdownContent`. -/
def insertedText (conv : List Char → List Char) (content : List Char) :
    List Char :=
  let cleaned := cleanMarkdown content
  if containsMarkdown cleaned then conv cleaned else cleaned

/-- Success path of `handleImproveText` after the response arrives, up to the
highlight step: insert via `insertMarkdownContent`, read the new selection
end (`from` plus the inserted length), and apply the aiResponse mark over the
inserted span. -/
def improveAfterMark (conv : List Char → List Char) (d : Doc)
    (a b : Nat) (content : List Char) : Doc :=
  setMarkRange (insertMarkdownContent conv d a b content) a
    (a + (insertedText conv content).length)

/-- Success path of `handleImproveText` after the scheduled removal delay
fires: all aiResponse marks are removed from the document. -/
def improveAfterFade (conv : List Char → List Char) (d : Doc)
    (a b : Nat) (content : List Char) : Doc :=
  removeAllAiMarks (improveAfterMark conv d a b content)

/-- A payload wrapped in one outer fence: an opening fence line with info
string, a body, and a closing fence line. -/
def fenceWrap (info body : List Char) : List Char :=
  ('`' :: '`' :: '`' :: info) ++ '\n' :: (body ++ '\n' :: ['`', '`', '`'])

/-! ## Helper lemmas -/

theorem splitOnNL_ne_nil (l : List Char) : splitOnNL l ≠ [] := by
  cases l with
  | nil => simp [splitOnNL]
  | cons c cs =>
    simp only [splitOnNL]
    split
    · simp
    · split <;> simp

theorem splitOnNL_append (a b : List Char) :
    splitOnNL (a ++ '\n' :: b) = splitOnNL a ++ splitOnNL b := by
  induction a with
  | nil => simp [splitOnNL]
  | cons c cs ih =>
    by_cases hc : c = '\n'
    · subst hc
      simp [splitOnNL, ih]
    · cases h : splitOnNL cs with
      | nil => exact absurd h (splitOnNL_ne_nil cs)
      | cons l ls =>
        have l1 : splitOnNL (cs ++ '\n' :: b) = l :: (ls ++ splitOnNL b) := by
          rw [ih, h]
          simp
        simp only [List.cons_append, splitOnNL, if_neg hc, h]
        simp only [List.append_eq]
        rw [l1]

theorem intercalNL_splitOnNL (l : List Char) : intercalNL (splitOnNL l) = l := by
  induction l with
  | nil => rfl
  | cons c cs ih =>
    by_cases hc : c = '\n'
    · subst hc
      simp only [splitOnNL, if_pos rfl]
      cases h : splitOnNL cs with
      | nil => exact absurd h (splitOnNL_ne_nil cs)
      | cons l ls =>
        rw [h] at ih
        simp [intercalNL, ih]
    · cases h : splitOnNL cs with
      | nil => exact absurd h (splitOnNL_ne_nil cs)
      | cons l ls =>
        rw [h] at ih
        simp only [splitOnNL, if_neg hc, h]
        cases ls with
        | nil => simpa [intercalNL] using congrArg (c :: ·) ih
        | cons m ms => simpa [intercalNL] using congrArg (c :: ·) ih

theorem splitOnNL_no_newline (l : List Char) (h : '\n' ∉ l) : splitOnNL l = [l] := by
  induction l with
  | nil => rfl
  | cons c cs ih =>
    have hc : c ≠ '\n' := fun e => h (e ▸ List.mem_cons_self c cs)
    have hcs : '\n' ∉ cs := fun e => h (List.mem_cons_of_mem c e)
    simp only [splitOnNL, if_neg hc, ih hcs]

theorem jsTrim_eq_self (l : List Char)
    (h1 : ∀ c, l.head? = some c → jsWs c = false)
    (h2 : ∀ c, l.getLast? = some c → jsWs c = false) : jsTrim l = l := by
  have e1 : l.dropWhile jsWs = l := by
    cases l with
    | nil => rfl
    | cons c cs => simp [List.dropWhile, h1 c rfl]
  have e2 : l.reverse.dropWhile jsWs = l.reverse := by
    cases hr : l.reverse with
    | nil => rfl
    | cons c cs =>
      have : l.getLast? = some c := by
        rw [← List.head?_reverse, hr]
        rfl
      simp [List.dropWhile, h2 c this]
  simp [jsTrim, e1, e2]

theorem lookup_setBal (db : ProfilesTable) (uid : Nat) (v : Int)
    (h : (db.lookup uid).isSome = true) :
    (setBal db uid v).lookup uid = some v := by
  induction db with
  | nil => simp [List.lookup] at h
  | cons r rest ih =>
    obtain ⟨k, bv⟩ := r
    by_cases hr : k = uid
    · subst hr
      simp only [setBal, List.map_cons, if_pos rfl]
      simp [List.lookup]
    · have hne : (uid == k) = false := by
        simp only [beq_eq_false_iff_ne, ne_eq]
        exact fun e => hr e.symm
      have h' : (rest.lookup uid).isSome = true := by
        simpa [List.lookup, hne] using h
      simp only [setBal, List.map_cons, if_neg hr]
      simpa [List.lookup, hne] using ih h'

/-! ## Claim theorems -/

/-- C10: every newly created user account is initialized with a credit
balance of exactly 10: the signup trigger inserts a profile row with
`credits = 10` for every new auth user, which equals the table's default and
the free-credit grant advertised on the signup page. -/
theorem c10_signup_credit_grant :
    ∀ (db : ProfilesTable) (uid : Nat),
      (handle_new_user db uid).lookup uid = some advertisedSignupCredits ∧
      profilesDefaultCredits = advertisedSignupCredits := by
  intro db uid
  refine ⟨?_, rfl⟩
  simp [handle_new_user, advertisedSignupCredits, List.lookup]

/-- C9: any improve-text or agent-instruction invocation arriving less than
`MIN_LLM_CALL_INTERVAL` after the shared last-call timestamp is rejected
with no request issued and the state (in particular the timestamp) left
unchanged; moreover a successful admission through either entry point
records `now` in the same shared timestamp field. -/
theorem c9_rate_limit_admission :
    ∀ (s : EditorClientState) (now : Int) (sel : Bool),
      (now - s.lastLLMCall < MIN_LLM_CALL_INTERVAL →
        admitImprove s now sel = (false, s) ∧ admitAgent s now = (false, s)) ∧
      ((admitImprove s now sel).1 = true →
        (admitImprove s now sel).2.lastLLMCall = now) ∧
      ((admitAgent s now).1 = true → (admitAgent s now).2.lastLLMCall = now) := by
  intro s now sel
  refine ⟨fun h => ⟨?_, ?_⟩, ?_, ?_⟩
  · simp [admitImprove, h]
  · simp [admitAgent, h]
  · unfold admitImprove
    split
    · intro h
      exact absurd h (by simp)
    · split
      · intro h
        exact absurd h (by simp)
      · split
        · intro h
          exact absurd h (by simp)
        · intro _
          rfl
  · unfold admitAgent
    split
    · intro h
      exact absurd h (by simp)
    · split
      · intro h
        exact absurd h (by simp)
      · intro _
        rfl

/-- C9 witness: a concrete invocation 500 ms after the last call is rejected
by both entry points with the state unchanged. -/
theorem c9_rate_limit_admission_witness :
    admitImprove ⟨1000, false, false, true⟩ 1500 true =
        (false, ⟨1000, false, false, true⟩) ∧
      admitAgent ⟨1000, false, false, true⟩ 1500 =
        (false, ⟨1000, false, false, true⟩) :=
  (c9_rate_limit_admission ⟨1000, false, false, true⟩ 1500 true).1 (by decide)

/-- C2: every durable save strips the transient aiResponse annotation: both
save paths run `stripAiResponseMarks` before persisting, so the persisted
state of any document carries no aiResponse mark while its visible text is
preserved — in particular for a save taken while a highlight is still
pending, right after the mark step of the improve pipeline. -/
theorem c2_save_strips_ai_marks :
    ∀ (w : Doc),
      hasAiMark (savedContent w) = false ∧
      docText (savedContent w) = docText w ∧
      (∀ (conv : List Char → List Char) (d : Doc) (a b : Nat) (payload : List Char),
        hasAiMark (savedContent (improveAfterMark conv d a b payload)) = false) := by
  have hno : ∀ (w : Doc), hasAiMark (savedContent w) = false := by
    intro w
    induction w with
    | nil => rfl
    | cons p rest ih =>
      show (false || hasAiMark (savedContent rest)) = false
      rw [ih]
      rfl
  have htext : ∀ (w : Doc), docText (savedContent w) = docText w := by
    intro w
    induction w with
    | nil => rfl
    | cons p rest ih =>
      show p.1 :: docText (savedContent rest) = p.1 :: docText rest
      rw [ih]
  intro w
  exact ⟨hno w, htext w, fun conv d a b payload => hno _⟩

/-- C4: `consume_credit` reports insufficient credits and leaves the table
unchanged whenever the account balance is below the requested amount;
`refund_credit` reports not-found when no profile row exists, and otherwise
returns ok and increments the stored balance by the amount. -/
theorem c4_ledger_error_contract :
    ∀ (db : ProfilesTable) (uid : Nat) (amount c : Int),
      (db.lookup uid = some c → c < amount →
        consume_credit db uid amount = (db, .insufficient c)) ∧
      (db.lookup uid = none → refund_credit db uid amount = (db, .notFound)) ∧
      (db.lookup uid = some c →
        (refund_credit db uid amount).2 = .ok (c + amount) ∧
        (refund_credit db uid amount).1.lookup uid = some (c + amount)) := by
  intro db uid amount c
  refine ⟨fun hc hlt => ?_, fun hn => ?_, fun hc => ?_⟩
  · simp [consume_credit, hc, hlt]
  · simp [refund_credit, hn]
  · refine ⟨by simp [refund_credit, hc], ?_⟩
    have hs : (db.lookup uid).isSome = true := by simp [hc]
    simp [refund_credit, hc, lookup_setBal db uid (c + amount) hs]

/-- C4 witness: with one account holding 3 credits, a reservation of 5 is
rejected as insufficient with the table unchanged, a refund against an empty
table reports not-found, and a refund of 5 yields a balance of 8. -/
theorem c4_ledger_error_contract_witness :
    consume_credit [(7, 3)] 7 5 = ([(7, 3)], .insufficient 3) ∧
      refund_credit ([] : ProfilesTable) 7 5 = ([], .notFound) ∧
      (refund_credit [(7, 3)] 7 5).1.lookup 7 = some 8 :=
  ⟨(c4_ledger_error_contract [(7, 3)] 7 5 3).1 (by decide) (by decide),
   (c4_ledger_error_contract [] 7 5 3).2.1 (by decide),
   ((c4_ledger_error_contract [(7, 3)] 7 5 3).2.2 (by decide)).2⟩

/-- C5 counterexample: a payload holding two separate fenced blocks is not
entirely wrapped in a single fence, yet `cleanMarkdown` still removes its
first and last lines, contradicting the claim that no lines are removed for
inputs not entirely wrapped in one fence. -/
theorem c5_clean_markdown_counterexample :
    wrappedInSingleFence ("```\na\n```\nmid\n```\nb\n```".toList) = false ∧
      (splitOnNL (cleanMarkdown ("```\na\n```\nmid\n```\nb\n```".toList))).length <
        (splitOnNL (jsTrim ("```\na\n```\nmid\n```\nb\n```".toList))).length := by
  decide

/-- C7 counterexample: a plain-text payload with leading whitespace is
trimmed by `cleanMarkdown` before insertion, so the payload does not appear
verbatim anywhere in the resulting document, contradicting the claimed
verbatim round trip. -/
theorem c7_plain_payload_not_verbatim :
    containsMarkdown (cleanMarkdown (" hi".toList)) = false ∧
      containsSub (" hi".toList)
        (docText (insertMarkdownContent id (mkDoc ("abcdef".toList)) 2 4
          (" hi".toList))) = false := by
  decide

/-- C6: `containsMarkdown` is true exactly when at least one pattern of the
fixed set (headings, bold, italic, unordered and ordered lists, blockquotes,
inline code, code fences, links, the two rules, task markers) matches; and a
payload whose cleaned form matches none of the patterns is inserted as plain
text by `insertMarkdownContent`. -/
theorem c6_markdown_pattern_set :
    ∀ (t : List Char),
      (containsMarkdown t = true ↔
        (matchesHeading t = true ∨ matchesBold t = true ∨ matchesItalic t = true ∨
         matchesUnordered t = true ∨ matchesOrdered t = true ∨
         matchesBlockquote t = true ∨ matchesInlineCode t = true ∨
         matchesCodeBlock t = true ∨ matchesLink t = true ∨ matchesRule t = true ∨
         matchesRuleAlt t = true ∨ matchesTask t = true)) ∧
      (∀ (conv : List Char → List Char) (d : Doc) (a b : Nat) (payload : List Char),
        containsMarkdown (cleanMarkdown payload) = false →
        insertMarkdownContent conv d a b payload =
          replaceRange d a b (cleanMarkdown payload)) := by
  intro t
  constructor
  · simp [containsMarkdown, markdownPatterns, or_assoc]
  · intro conv d a b payload h
    simp [insertMarkdownContent, h]

/-- C6 witness: the plain payload "hello" matches no pattern and is inserted
as plain text. -/
theorem c6_markdown_pattern_set_witness :
    insertMarkdownContent id (mkDoc ("abc".toList)) 1 1 ("hello".toList) =
      replaceRange (mkDoc ("abc".toList)) 1 1 (cleanMarkdown ("hello".toList)) :=
  (c6_markdown_pattern_set ("hello".toList)).2 id (mkDoc ("abc".toList)) 1 1
    ("hello".toList) (by decide)

/-- C1: for any number of unit reservations against one account with initial
balance B at least 0, each `consume_credit` call being atomic
(`SELECT ... FOR UPDATE`), the number of successes is at most B and the
final balance equals B minus the number of successes. -/
theorem c1_reserve_sequence_bound :
    ∀ (B : Int) (uid : Nat) (n : Nat), 0 ≤ B →
      ((runReserves uid [(uid, B)] n).2 : Int) ≤ B ∧
      (runReserves uid [(uid, B)] n).1.lookup uid =
        some (B - (runReserves uid [(uid, B)] n).2) := by
  intro B uid n
  induction n generalizing B with
  | zero =>
    intro hB
    refine ⟨by simpa [runReserves] using hB, ?_⟩
    simp [runReserves, List.lookup]
  | succ n ih =>
    intro hB
    by_cases hlt : B < 1
    · have hstep : consume_credit [(uid, B)] uid 1 = ([(uid, B)], .insufficient B) := by
        simp [consume_credit, List.lookup, hlt]
      obtain ⟨ih1, ih2⟩ := ih B hB
      constructor
      · simpa [runReserves, hstep, isOk] using ih1
      · simpa [runReserves, hstep, isOk] using ih2
    · have hset : setBal [(uid, B)] uid (B - 1) = [(uid, B - 1)] := by
        simp [setBal]
      have hstep : consume_credit [(uid, B)] uid 1 = ([(uid, B - 1)], .ok (B - 1)) := by
        simp [consume_credit, List.lookup, hlt, hset]
      have hB1 : 0 ≤ B - 1 := by omega
      obtain ⟨ih1, ih2⟩ := ih (B - 1) hB1
      constructor
      · simp only [runReserves, hstep, isOk]
        push_cast
        omega
      · simp only [runReserves, hstep, isOk]
        rw [ih2]
        congr 1
        push_cast
        ring

/-- C1 witness: three unit reservations against a balance of 2 yield exactly
2 successes and a final balance of 0. -/
theorem c1_reserve_sequence_bound_witness :
    ((runReserves 0 [(0, 2)] 3).2 : Int) ≤ 2 ∧
      (runReserves 0 [(0, 2)] 3).1.lookup 0 =
        some (2 - (runReserves 0 [(0, 2)] 3).2) :=
  c1_reserve_sequence_bound 2 0 3 (by decide)

theorem pairs_nonterminal (steps : List ToolStep) :
    ∀ e ∈ (steps.flatMap fun s =>
      [StreamEvent.toolCall s.name s.arg, StreamEvent.toolResult s.name s.result]),
      isTerminal e = false := by
  intro e he
  rw [List.mem_flatMap] at he
  obtain ⟨s, _, hs⟩ := he
  simp only [List.mem_cons, List.not_mem_nil, or_false, List.mem_singleton] at hs
  rcases hs with h | h <;> subst h <;> rfl

theorem processed_prefix_nonterminal :
    ∀ (l : List StreamEvent), ∀ e ∈ (processedEvents l).dropLast,
      isTerminal e = false := by
  intro l
  induction l with
  | nil => simp [processedEvents]
  | cons x xs ih =>
    cases hx : isTerminal x with
    | true => simp [processedEvents, hx]
    | false =>
      intro e he
      simp only [processedEvents, hx, Bool.false_eq_true, if_false] at he
      cases hp : processedEvents xs with
      | nil =>
        rw [hp] at he
        simp at he
      | cons y ys =>
        rw [hp] at he
        rw [List.dropLast_cons₂] at he
        rcases List.mem_cons.mp he with h | h
        · subst h
          exact hx
        · exact ih e (by rw [hp]; exact h)

theorem emitTrace_dropLast_success (steps : List ToolStep) (m : String) :
    (emitTrace ⟨steps, .success m⟩).dropLast =
      .started :: (steps.flatMap fun s =>
        [StreamEvent.toolCall s.name s.arg, StreamEvent.toolResult s.name s.result]) ++
          [.response m] := by
  have h : emitTrace ⟨steps, .success m⟩ =
      (StreamEvent.started :: (steps.flatMap fun s =>
        [StreamEvent.toolCall s.name s.arg, StreamEvent.toolResult s.name s.result]) ++
          [.response m]) ++ [.completed m] := by
    simp [emitTrace]
  rw [h, List.dropLast_concat]

theorem emitTrace_dropLast_failure (steps : List ToolStep) (r : String) :
    (emitTrace ⟨steps, .failure r⟩).dropLast =
      .started :: (steps.flatMap fun s =>
        [StreamEvent.toolCall s.name s.arg, StreamEvent.toolResult s.name s.result]) := by
  have h : emitTrace ⟨steps, .failure r⟩ =
      (StreamEvent.started :: (steps.flatMap fun s =>
        [StreamEvent.toolCall s.name s.arg, StreamEvent.toolResult s.name s.result])) ++
          [.error r] := by
    simp [emitTrace]
  rw [h, List.dropLast_concat]

/-- C3: for every orchestrator run the emitted event sequence starts with
`Started`, holds exactly one terminal event, every event before the last is
non-terminal (so nothing follows the terminal event), any `Response` occurs
strictly before the terminal event (in particular before `Completed`); and
the client loop of `handleSend` processes no event after the first terminal
event of whatever stream it receives. -/
theorem c3_stream_event_protocol :
    ∀ (run : OrchRun) (l : List StreamEvent),
      (emitTrace run).head? = some .started ∧
      (emitTrace run).countP (fun e => isTerminal e) = 1 ∧
      (∀ e ∈ (emitTrace run).dropLast, isTerminal e = false) ∧
      (∀ m, StreamEvent.response m ∈ emitTrace run →
        StreamEvent.response m ∈ (emitTrace run).dropLast) ∧
      (∀ e ∈ (processedEvents l).dropLast, isTerminal e = false) := by
  intro run l
  obtain ⟨steps, outcome⟩ := run
  have h0 : (steps.flatMap fun s =>
      [StreamEvent.toolCall s.name s.arg,
       StreamEvent.toolResult s.name s.result]).countP (fun e => isTerminal e) = 0 := by
    rw [List.countP_eq_zero]
    intro e he
    simp [pairs_nonterminal steps e he]
  refine ⟨?_, ?_, ?_, ?_, processed_prefix_nonterminal l⟩
  · cases outcome <;> rfl
  · cases outcome with
    | success m =>
      simp [emitTrace, List.countP_cons, List.countP_append, isTerminal, h0]
      intro a x hx h
      rcases h with h | h <;> subst h <;> rfl
    | failure r =>
      simp [emitTrace, List.countP_cons, List.countP_append, isTerminal, h0]
      intro a x hx h
      rcases h with h | h <;> subst h <;> rfl
  · cases outcome with
    | success m =>
      rw [emitTrace_dropLast_success]
      intro e he
      rcases List.mem_cons.mp he with h | h
      · subst h
        rfl
      · rcases List.mem_append.mp h with h | h
        · exact pairs_nonterminal steps e h
        · rw [List.mem_singleton] at h
          subst h
          rfl
    | failure r =>
      rw [emitTrace_dropLast_failure]
      intro e he
      rcases List.mem_cons.mp he with h | h
      · subst h
        rfl
      · exact pairs_nonterminal steps e h
  · cases outcome with
    | success m =>
      intro m' hm'
      rw [emitTrace_dropLast_success]
      simp only [emitTrace, List.cons_append, List.mem_cons, List.mem_append] at hm'
      rcases hm' with h | h | h
      · exact absurd h (by simp)
      · exact absurd h (by
          intro hmem
          rcases List.mem_flatMap.mp hmem with ⟨s, _, hs⟩
          simp at hs)
      · simp only [List.mem_cons, List.not_mem_nil, or_false, List.mem_singleton] at h
        rcases h with h | h
        · rw [StreamEvent.response.injEq] at h
          subst h
          simp
        · exact absurd h (by simp)
    | failure r =>
      intro m' hm'
      exact absurd hm' (by
        simp only [emitTrace, List.cons_append, List.mem_cons, List.mem_append]
        push_neg
        refine ⟨by simp, ?_, by simp⟩
        intro hmem
        rcases List.mem_flatMap.mp hmem with ⟨s, _, hs⟩
        simp at hs)

/-- C3 witness: a concrete one-step successful run and a concrete received
stream instantiate the protocol properties. -/
theorem c3_stream_event_protocol_witness :
    (emitTrace ⟨[⟨"replace_text", "a", "ok"⟩], .success "done"⟩).head? =
        some .started ∧
      isTerminal (StreamEvent.toolCall "replace_text" "a") = false ∧
      StreamEvent.response "done" ∈
        (emitTrace ⟨[⟨"replace_text", "a", "ok"⟩], .success "done"⟩).dropLast :=
  ⟨(c3_stream_event_protocol ⟨[⟨"replace_text", "a", "ok"⟩], .success "done"⟩
      [.started, .completed "d"]).1,
   (c3_stream_event_protocol ⟨[⟨"replace_text", "a", "ok"⟩], .success "done"⟩
      [.started, .completed "d"]).2.2.1 _ (by
        rw [emitTrace_dropLast_success]
        simp),
   (c3_stream_event_protocol ⟨[⟨"replace_text", "a", "ok"⟩], .success "done"⟩
      [.started, .completed "d"]).2.2.2.1 "done" (by simp [emitTrace])⟩

theorem docText_append (x y : Doc) : docText (x ++ y) = docText x ++ docText y := by
  simp [docText]

theorem middle_segment {A : Type} (x y z : List A) (a l : Nat)
    (hx : x.length = a) (hy : y.length = l) :
    ((x ++ (y ++ z)).drop a).take l = y := by
  subst hx
  subst hy
  rw [List.drop_left, List.take_left]

theorem docText_mkDoc (t : List Char) : docText (mkDoc t) = t := by
  induction t with
  | nil => rfl
  | cons c cs ih =>
    show c :: docText (mkDoc cs) = c :: cs
    rw [ih]

theorem docText_markedMap (t : List Char) :
    docText (t.map (fun c => (c, true))) = t := by
  induction t with
  | nil => rfl
  | cons c cs ih =>
    show c :: docText (cs.map (fun c => (c, true))) = c :: cs
    rw [ih]

theorem mkDoc_markAll (t : List Char) :
    (mkDoc t).map (fun p => (p.1, true)) = t.map (fun c => (c, true)) := by
  induction t with
  | nil => rfl
  | cons c cs ih =>
    show ((c, true) :: (mkDoc cs).map (fun p => (p.1, true))) = (c, true) :: cs.map (fun c => (c, true))
    rw [ih]

theorem docText_removeAll (w : Doc) : docText (removeAllAiMarks w) = docText w := by
  induction w with
  | nil => rfl
  | cons p rest ih =>
    show p.1 :: docText (removeAllAiMarks rest) = p.1 :: docText rest
    rw [ih]

theorem hasAiMark_removeAll (w : Doc) : hasAiMark (removeAllAiMarks w) = false := by
  induction w with
  | nil => rfl
  | cons p rest ih =>
    show (false || hasAiMark (removeAllAiMarks rest)) = false
    rw [ih]
    rfl

theorem insert_eq_replace (conv : List Char → List Char) (d : Doc) (a b : Nat)
    (content : List Char) :
    insertMarkdownContent conv d a b content =
      replaceRange d a b (insertedText conv content) := by
  simp only [insertMarkdownContent, insertedText]
  split <;> rfl

theorem setMarkAux_low (a b : Nat) :
    ∀ (xs : Doc) (i : Nat), i + xs.length ≤ a → setMarkAux a b i xs = xs := by
  intro xs
  induction xs with
  | nil => intro i _; rfl
  | cons p rest ih =>
    intro i h
    simp only [List.length_cons] at h
    have h1 : ¬(a ≤ i ∧ i < b) := by omega
    simp [setMarkAux, h1, ih (i + 1) (by omega)]

theorem setMarkAux_high (a b : Nat) :
    ∀ (xs : Doc) (i : Nat), b ≤ i → setMarkAux a b i xs = xs := by
  intro xs
  induction xs with
  | nil => intro i _; rfl
  | cons p rest ih =>
    intro i h
    have h1 : ¬(a ≤ i ∧ i < b) := by omega
    simp [setMarkAux, h1, ih (i + 1) (by omega)]

theorem setMarkAux_mid (a b : Nat) :
    ∀ (xs : Doc) (i : Nat), a ≤ i → i + xs.length ≤ b →
      setMarkAux a b i xs = xs.map (fun p => (p.1, true)) := by
  intro xs
  induction xs with
  | nil => intro i _ _; rfl
  | cons p rest ih =>
    intro i hl hr
    simp only [List.length_cons] at hr
    have h1 : a ≤ i ∧ i < b := by omega
    simp [setMarkAux, h1, ih (i + 1) (by omega) (by omega)]

theorem setMarkAux_append (a b : Nat) :
    ∀ (xs ys : Doc) (i : Nat),
      setMarkAux a b i (xs ++ ys) =
        setMarkAux a b i xs ++ setMarkAux a b (i + xs.length) ys := by
  intro xs
  induction xs with
  | nil => intro ys i; simp [setMarkAux]
  | cons p rest ih =>
    intro ys i
    simp only [List.cons_append, setMarkAux, List.length_cons, List.append_eq]
    rw [ih ys (i + 1)]
    have harith : i + 1 + rest.length = i + (rest.length + 1) := by omega
    rw [harith]

theorem setMarkRange_exact (x y z : Doc) :
    setMarkRange (x ++ (y ++ z)) x.length (x.length + y.length) =
      x ++ (y.map (fun p => (p.1, true)) ++ z) := by
  unfold setMarkRange
  rw [setMarkAux_append, setMarkAux_append]
  rw [setMarkAux_low _ _ x 0 (by omega)]
  rw [setMarkAux_mid _ _ y (0 + x.length) (by omega) (by omega)]
  rw [setMarkAux_high _ _ z (0 + x.length + y.length) (by omega)]

theorem improveAfterMark_eq (conv : List Char → List Char) (d : Doc)
    (a b : Nat) (payload : List Char) (h1 : a ≤ b) (h2 : b ≤ d.length) :
    improveAfterMark conv d a b payload =
      d.take a ++ ((insertedText conv payload).map (fun c => (c, true)) ++ d.drop b) := by
  unfold improveAfterMark
  rw [insert_eq_replace]
  have hX : (d.take a).length = a := by
    simp only [List.length_take]
    omega
  have hY : (mkDoc (insertedText conv payload)).length =
      (insertedText conv payload).length := by
    simp [mkDoc]
  have hrr : replaceRange d a b (insertedText conv payload) =
      d.take a ++ (mkDoc (insertedText conv payload) ++ d.drop b) := by
    simp [replaceRange]
  have hexact := setMarkRange_exact (d.take a) (mkDoc (insertedText conv payload))
    (d.drop b)
  rw [hX, hY] at hexact
  rw [hrr, hexact, mkDoc_markAll]

/-- C7 (amended): applying a non-markdown payload to a valid range yields a
document whose visible text over the inserted span equals the normalized
payload `cleanMarkdown payload` — the payload verbatim exactly when it
carries no surrounding whitespace to trim. -/
theorem c7_plain_payload_roundtrip :
    ∀ (conv : List Char → List Char) (d : Doc) (a b : Nat) (payload : List Char),
      a ≤ b → b ≤ d.length →
      containsMarkdown (cleanMarkdown payload) = false →
      textBetween (insertMarkdownContent conv d a b payload) a
          (a + (cleanMarkdown payload).length) = cleanMarkdown payload := by
  intro conv d a b payload h1 h2 h3
  have he : insertMarkdownContent conv d a b payload =
      replaceRange d a b (cleanMarkdown payload) := by
    simp [insertMarkdownContent, h3]
  rw [he]
  unfold textBetween replaceRange
  rw [Nat.add_sub_cancel_left, List.append_assoc, docText_append, docText_append,
    docText_mkDoc]
  have hX : (docText (d.take a)).length = a := by
    simp only [docText, List.length_map, List.length_take]
    omega
  exact middle_segment _ _ _ a _ hX rfl

/-- C7 witness: inserting the already-trimmed plain payload "xy" over the
range 1 to 2 reproduces it verbatim at that position. -/
theorem c7_plain_payload_roundtrip_witness :
    textBetween (insertMarkdownContent id (mkDoc ("abcd".toList)) 1 2 ("xy".toList)) 1
        (1 + (cleanMarkdown ("xy".toList)).length) = cleanMarkdown ("xy".toList) :=
  c7_plain_payload_roundtrip id (mkDoc ("abcd".toList)) 1 2 ("xy".toList)
    (by decide) (by decide) (by decide)

/-- C8: after a patch is applied to a valid range, the inserted span ends at
the computed end position and shows the inserted text, every position of the
span carries the aiResponse mark, and once the scheduled removal fires the
mark is gone from the whole document while the visible content is exactly
the content right after insertion. -/
theorem c8_highlight_lifecycle :
    ∀ (conv : List Char → List Char) (d : Doc) (a b : Nat) (payload : List Char),
      a ≤ b → b ≤ d.length →
      textBetween (improveAfterMark conv d a b payload) a
          (a + (insertedText conv payload).length) = insertedText conv payload ∧
      (((improveAfterMark conv d a b payload).drop a).take
          (insertedText conv payload).length).all (fun p => p.2) = true ∧
      hasAiMark (improveAfterFade conv d a b payload) = false ∧
      docText (improveAfterFade conv d a b payload) =
        docText (insertMarkdownContent conv d a b payload) := by
  intro conv d a b payload h1 h2
  have hm := improveAfterMark_eq conv d a b payload h1 h2
  have hXd : (d.take a).length = a := by
    simp only [List.length_take]
    omega
  refine ⟨?_, ?_, ?_, ?_⟩
  · rw [hm]
    unfold textBetween
    rw [Nat.add_sub_cancel_left, docText_append, docText_append, docText_markedMap]
    have hX : (docText (d.take a)).length = a := by
      simp only [docText, List.length_map]
      exact hXd
    exact middle_segment _ _ _ a _ hX rfl
  · rw [hm]
    have hY : ((insertedText conv payload).map (fun c => (c, true))).length =
        (insertedText conv payload).length := by
      simp
    rw [middle_segment (d.take a) ((insertedText conv payload).map (fun c => (c, true)))
      (d.drop b) a ((insertedText conv payload).length) hXd hY]
    simp
  · exact hasAiMark_removeAll _
  · show docText (removeAllAiMarks (improveAfterMark conv d a b payload)) = _
    rw [docText_removeAll, hm, insert_eq_replace]
    unfold replaceRange
    rw [List.append_assoc, docText_append, docText_append, docText_append,
      docText_append, docText_mkDoc, docText_markedMap]

/-- C8 witness: inserting "xy" at range 1 to 2 of "abcd" marks exactly the
inserted span and, after the removal fires, leaves the content unmarked. -/
theorem c8_highlight_lifecycle_witness :
    textBetween (improveAfterMark id (mkDoc ("abcd".toList)) 1 2 ("xy".toList)) 1
        (1 + (insertedText id ("xy".toList)).length) = insertedText id ("xy".toList) ∧
      hasAiMark (improveAfterFade id (mkDoc ("abcd".toList)) 1 2 ("xy".toList)) = false :=
  ⟨(c8_highlight_lifecycle id (mkDoc ("abcd".toList)) 1 2 ("xy".toList)
      (by decide) (by decide)).1,
   (c8_highlight_lifecycle id (mkDoc ("abcd".toList)) 1 2 ("xy".toList)
      (by decide) (by decide)).2.2.1⟩


theorem fenceWrap_concat (info body : List Char) :
    fenceWrap info body =
      (('`' :: '`' :: '`' :: info) ++ '\n' :: (body ++ ['\n', '`', '`'])) ++ ['`'] := by
  simp [fenceWrap]

/-- C5 (amended): `cleanMarkdown` trims surrounding whitespace and removes
the first and last lines whenever the trimmed payload starts and ends with
three backticks and spans at least two lines — in particular for any payload
of the form opening fence line, body, closing fence line it returns the body,
even when the body itself holds further fences; and a payload whose trimmed
form does not start with three backticks is returned with only the trim
applied, no lines removed. -/
theorem c5_clean_markdown_amended :
    (∀ (info body : List Char), '\n' ∉ info →
      cleanMarkdown (fenceWrap info body) = body) ∧
    (∀ s : List Char, List.isPrefixOf ['`', '`', '`'] (jsTrim s) = false →
      cleanMarkdown s = jsTrim s) := by
  constructor
  · intro info body hinfo
    have htrim : jsTrim (fenceWrap info body) = fenceWrap info body := by
      apply jsTrim_eq_self
      · intro c hc
        rw [show (fenceWrap info body).head? = some '`' from rfl] at hc
        have hcc : c = '`' := (Option.some.injEq _ _).mp hc.symm
        subst hcc
        rfl
      · intro c hc
        rw [fenceWrap_concat, List.getLast?_concat] at hc
        have hcc : c = '`' := (Option.some.injEq _ _).mp hc.symm
        subst hcc
        rfl
    have hA : '\n' ∉ ('`' :: '`' :: '`' :: info) := by
      intro hmem
      simp only [List.mem_cons] at hmem
      rcases hmem with h | h | h | h
      · exact absurd h (by decide)
      · exact absurd h (by decide)
      · exact absurd h (by decide)
      · exact hinfo h
    have hpre : List.isPrefixOf ['`', '`', '`'] (fenceWrap info body) = true := by
      simp [fenceWrap, List.isPrefixOf]
    have hsuf : List.isSuffixOf ['`', '`', '`'] (fenceWrap info body) = true := by
      refine List.isSuffixOf_iff_suffix.mpr ?_
      refine ⟨('`' :: '`' :: '`' :: info) ++ '\n' :: (body ++ ['\n']), ?_⟩
      simp [fenceWrap]
    have hsplit : splitOnNL (fenceWrap info body) =
        ('`' :: '`' :: '`' :: info) :: (splitOnNL body ++ [['`', '`', '`']]) := by
      unfold fenceWrap
      rw [splitOnNL_append ('`' :: '`' :: '`' :: info) (body ++ '\n' :: ['`', '`', '`'])]
      rw [splitOnNL_append body ['`', '`', '`']]
      rw [splitOnNL_no_newline _ hA, splitOnNL_no_newline ['`', '`', '`'] (by decide)]
      simp
    simp only [cleanMarkdown, htrim, hpre, hsuf, Bool.and_self, if_true, hsplit]
    have hlen : 2 ≤ ((('`' :: '`' :: '`' :: info) ::
        (splitOnNL body ++ [['`', '`', '`']])).length) := by
      simp
    rw [if_pos hlen]
    simp only [List.drop_succ_cons, List.drop_zero, List.dropLast_concat]
    exact intercalNL_splitOnNL body
  · intro s h
    simp [cleanMarkdown, h]

/-- C5 witness: a fenced payload with info string "md" and two body lines is
unwrapped to the body, and a plain payload is only trimmed. -/
theorem c5_clean_markdown_amended_witness :
    cleanMarkdown (fenceWrap ("md".toList) ("x\ny".toList)) = "x\ny".toList ∧
      cleanMarkdown ("plain".toList) = jsTrim ("plain".toList) :=
  ⟨c5_clean_markdown_amended.1 ("md".toList) ("x\ny".toList) (by decide),
   c5_clean_markdown_amended.2 ("plain".toList) (by decide)⟩

end RyteAI
